import Mathlib

/-!
Shallow embedding of `src/msl/examples/loadlib/cpp_lib.cpp` (and its header
`cpp_lib.h`).  C `double` and `float` are modelled as real numbers, C `int`
as `Int` with an explicit two's-complement wrap where overflow matters, and
raw pointers as base addresses into a memory `Int → α`.
-/

namespace CppLib

/-- `struct Point { double x; double y; }` from cpp_lib.h. -/
structure Point where
  x : ℝ
  y : ℝ

/-- `double distance(Point p1, Point p2)`:
`sqrt(pow(p1.x - p2.x, 2) + pow(p1.y - p2.y, 2))`. -/
noncomputable def distance (p1 p2 : Point) : ℝ :=
  Real.sqrt ((p1.x - p2.x) ^ 2 + (p1.y - p2.y) ^ 2)

/-- `struct FourPoints { Point points[4]; }` from cpp_lib.h. -/
structure FourPoints where
  points : Fin 4 → Point

/-- Array indexing `p.points[i]` for a `FourPoints`; the source only ever
indexes with `i` in `[0, 4)`, where `i % 4 = i`. -/
def FourPoints.pt (p : FourPoints) (i : Nat) : Point :=
  p.points ⟨i % 4, Nat.mod_lt _ (by norm_num)⟩

/-- `struct NPoints { int n; Point *points; }` from cpp_lib.h; the pointer is
modelled as the total function giving the point stored at each index. -/
structure NPoints where
  n : Int
  points : Int → Point

/-- The loop of `distance_4_points`: `for (int i = 1; i < 4; i++)
d += distance(p.points[i], p.points[i-1]);` after `k` iterations
(iteration `k` has `i = k + 1`). -/
noncomputable def d4_loop (p : FourPoints) (d : ℝ) : Nat → ℝ
  | 0 => d
  | k + 1 => d4_loop p d k + distance (p.pt (k + 1)) (p.pt k)

/-- `double distance_4_points(FourPoints p)` from cpp_lib.cpp:
`d = distance(p.points[0], p.points[3])` followed by the loop, which runs
3 times. -/
noncomputable def distance_4_points (p : FourPoints) : ℝ :=
  d4_loop p (distance (p.pt 0) (p.pt 3)) 3

/-- The loop of `distance_n_points`: `for (int i = 1; i < p.n; i++)
d += distance(p.points[i], p.points[i-1]);` after `k` iterations
(iteration `k` has `i = k + 1`). -/
noncomputable def dN_loop (pts : Int → Point) (d : ℝ) : Nat → ℝ
  | 0 => d
  | k + 1 => dN_loop pts d k + distance (pts ((k : Int) + 1)) (pts (k : Int))

/-- `double distance_n_points(NPoints p)` from cpp_lib.cpp: returns `0.0`
when `p.n < 2`, otherwise `d = distance(p.points[0], p.points[p.n-1])`
followed by the loop, which runs `p.n - 1` times. -/
noncomputable def distance_n_points (p : NPoints) : ℝ :=
  if p.n < 2 then 0
  else dN_loop p.points (distance (p.points 0) (p.points (p.n - 1))) (p.n - 1).toNat

/-- Two's-complement wrap onto the 32-bit signed range, modelling the
native fixed-width `int` arithmetic of the platform the library is built
for. -/
def wrap32 (x : Int) : Int := (x + 2 ^ 31) % 2 ^ 32 - 2 ^ 31

/-- `int add(int a, int b) { return a + b; }` from cpp_lib.cpp; the native
`int` sum wraps on overflow. -/
def add (a b : Int) : Int := wrap32 (a + b)

/-- `float subtract(float a, float b) { return a - b; }` from cpp_lib.cpp. -/
def subtract (a b : ℝ) : ℝ := a - b

/-- `double add_or_subtract(double a, double b, bool do_addition)` from
cpp_lib.cpp: `a + b` when the flag is true, else `a - b`. -/
def add_or_subtract (a b : ℝ) (do_addition : Bool) : ℝ :=
  if do_addition then a + b else a - b

/-! ### Memory model for the pointer-writing functions

A raw pointer is a base address into a flat memory `Int → α`; `p[i]` is the
value at address `p + i`, and an assignment `p[i] = v` is a pointwise
update of the memory. -/

/-- A flat memory of values of type `α`, one per address. -/
abbrev Mem (α : Type) := Int → α

/-- A single store through a pointer: the memory after `m[a] = v`. -/
def Mem.write {α : Type} (m : Mem α) (a : Int) (v : α) : Mem α :=
  fun x => if x = a then v else m x

/-- The loop of `scalar_multiply`: `for (int i = 0; i < n; i++)
xout[i] = a * xin[i];` after `k` iterations, acting on the memory `m`;
`xin` and `xout` are the base addresses of the two arrays. -/
noncomputable def scalar_multiply_loop (a : ℝ) (xin xout : Int) (m : Mem ℝ) : Nat → Mem ℝ
  | 0 => m
  | k + 1 =>
    Mem.write (scalar_multiply_loop a xin xout m k) (xout + k)
      (a * scalar_multiply_loop a xin xout m k (xin + k))

/-- `void scalar_multiply(double a, double* xin, int n, double* xout)` from
cpp_lib.cpp: the loop body runs once for each `i` in `[0, n)`, hence never
when `n ≤ 0`. -/
noncomputable def scalar_multiply (a : ℝ) (xin : Int) (n : Int) (xout : Int)
    (m : Mem ℝ) : Mem ℝ :=
  scalar_multiply_loop a xin xout m n.toNat

/-- The loop shared verbatim by `reverse_string_v1` and `reverse_string_v2`:
`for (int i = 0; i < n; i++) dst[i] = original[n - i - 1];` after `k`
iterations, acting on the char memory `m`; `original` and `dst` are base
addresses. -/
def reverse_loop (original n dst : Int) (m : Mem Char) : Nat → Mem Char
  | 0 => m
  | k + 1 =>
    Mem.write (reverse_loop original n dst m k) (dst + k)
      (reverse_loop original n dst m k (original + (n - k - 1)))

/-- `void reverse_string_v1(const char* original, int n, char* reversed)`
from cpp_lib.cpp: the loop runs once for each `i` in `[0, n)`. -/
def reverse_string_v1 (original : Int) (n : Int) (reversed : Int) (m : Mem Char) : Mem Char :=
  reverse_loop original n reversed m n.toNat

/-- `char* reverse_string_v2(char* original, int n)` from cpp_lib.cpp:
`new char[n]` yields an address `alloc` (the allocator's freshness
guarantee — the new block does not overlap the input — is a hypothesis of
the theorems below); the identical loop fills it, and the pointer is
returned alongside the updated memory. -/
def reverse_string_v2 (original : Int) (n : Int) (alloc : Int) (m : Mem Char) :
    Int × Mem Char :=
  (alloc, reverse_loop original n alloc m n.toNat)

/-- A concrete char memory: the letters of the word hello at addresses
0..4 and a space everywhere else. -/
def helloMem : Mem Char := fun a =>
  if a = 0 then 'h' else if a = 1 then 'e' else if a = 2 then 'l' else
  if a = 3 then 'l' else if a = 4 then 'o' else ' '

/-- A concrete char memory: the letters of the word abc at addresses
0..2 and a space everywhere else. -/
def abcMem : Mem Char := fun a =>
  if a = 0 then 'a' else if a = 1 then 'b' else if a = 2 then 'c' else ' '

theorem dN_loop_sum (pts : Int → Point) (d : ℝ) (k : Nat) :
    dN_loop pts d k =
      d + ∑ i in Finset.range k, distance (pts ((i : Int) + 1)) (pts (i : Int)) := by
  induction k with
  | zero => simp [dN_loop]
  | succ k ih => simp only [dN_loop, ih, Finset.sum_range_succ]; ring

/-- **C1**  For every `NPoints` value `p`: if `p.n < 2` then
`distance_n_points p` is `0.0`; otherwise it is
`distance(p[0], p[n-1])` plus the sum of `distance(p[i], p[i-1])` for
`i` in `[1, n)` (here written as the sum over `i` in `[0, n-1)` of
`distance(p[i+1], p[i])`). -/
theorem distance_n_points_spec (p : NPoints) :
    (p.n < 2 → distance_n_points p = 0) ∧
    (2 ≤ p.n → distance_n_points p =
      distance (p.points 0) (p.points (p.n - 1)) +
        ∑ i in Finset.range (p.n - 1).toNat,
          distance (p.points ((i : Int) + 1)) (p.points (i : Int))) := by
  constructor
  · intro h
    simp [distance_n_points, h]
  · intro h
    rw [distance_n_points, if_neg (by omega), dN_loop_sum]

/-- Concrete instantiation of `distance_n_points_spec` at a two-point value. -/
theorem distance_n_points_spec_witness :
    distance_n_points ⟨2, fun i => if i = 0 then ⟨0, 0⟩ else ⟨3, 4⟩⟩ =
      distance ⟨0, 0⟩ ⟨3, 4⟩ +
        ∑ i in Finset.range 1,
          distance ((fun j : Int => if j = 0 then (⟨0, 0⟩ : Point) else ⟨3, 4⟩) ((i : Int) + 1))
            ((fun j : Int => if j = 0 then (⟨0, 0⟩ : Point) else ⟨3, 4⟩) (i : Int)) := by
  have h := (distance_n_points_spec
    ⟨2, fun i => if i = 0 then ⟨0, 0⟩ else ⟨3, 4⟩⟩).2 (by norm_num)
  simpa using h

/-- **C2**  `distance_4_points` returns exactly
`distance(p0,p3) + distance(p1,p0) + distance(p2,p1) + distance(p3,p2)`:
the path sum in reverse adjacency order. -/
theorem distance_4_points_spec (p : FourPoints) :
    distance_4_points p =
      distance (p.pt 0) (p.pt 3) + distance (p.pt 1) (p.pt 0) +
        distance (p.pt 2) (p.pt 1) + distance (p.pt 3) (p.pt 2) := by
  rfl

/-- **C3**  For any 4 points, `distance_n_points` on the `NPoints` with
`n = 4` holding them agrees exactly with `distance_4_points` on the
`FourPoints` holding them in the same order. -/
theorem distance_n_points_eq_distance_4_points (q0 q1 q2 q3 : Point) :
    distance_n_points
        ⟨4, fun i => if i = 0 then q0 else if i = 1 then q1 else if i = 2 then q2 else q3⟩ =
      distance_4_points ⟨![q0, q1, q2, q3]⟩ := by
  rfl

/-- **C9**  For every `NPoints` with `p.n ≤ 1` (including every negative
count), `distance_n_points` returns `0.0` without reading the points
array: the result is `0` and is independent of the array contents. -/
theorem distance_n_points_small_n (n : Int) (pts pts2 : Int → Point) (h : n ≤ 1) :
    distance_n_points ⟨n, pts⟩ = 0 ∧
      distance_n_points ⟨n, pts⟩ = distance_n_points ⟨n, pts2⟩ := by
  have h2 : n < 2 := by omega
  constructor
  · simp [distance_n_points, h2]
  · simp [distance_n_points, h2]

/-- Concrete instantiation of `distance_n_points_small_n` at `n = -3` with
two different arrays. -/
theorem distance_n_points_small_n_witness :
    distance_n_points ⟨-3, fun _ => ⟨0, 0⟩⟩ = 0 ∧
      distance_n_points ⟨-3, fun _ => ⟨0, 0⟩⟩ = distance_n_points ⟨-3, fun _ => ⟨1, 1⟩⟩ :=
  distance_n_points_small_n (-3) (fun _ => ⟨0, 0⟩) (fun _ => ⟨1, 1⟩) (by norm_num)

/-- **C7**  `add` returns `a + b` wrapped to the 32-bit word: the result is
congruent to `a + b` modulo `2^32`, lies in the representable range, and
equals `a + b` exactly whenever the sum does not overflow. -/
theorem add_spec (a b : Int)
    (ha1 : -(2 ^ 31) ≤ a) (ha2 : a < 2 ^ 31) (hb1 : -(2 ^ 31) ≤ b) (hb2 : b < 2 ^ 31) :
    add a b % 2 ^ 32 = (a + b) % 2 ^ 32 ∧
      -(2 ^ 31) ≤ add a b ∧ add a b < 2 ^ 31 ∧
      (-(2 ^ 31) ≤ a + b → a + b < 2 ^ 31 → add a b = a + b) := by
  unfold add wrap32
  omega

/-- Concrete instantiation of `add_spec` at the overflowing sum
`INT_MAX + 1`. -/
theorem add_spec_witness :
    add 2147483647 1 % 2 ^ 32 = ((2147483647 : Int) + 1) % 2 ^ 32 ∧
      -(2 ^ 31) ≤ add 2147483647 1 ∧ add 2147483647 1 < 2 ^ 31 ∧
      (-(2 ^ 31) ≤ (2147483647 : Int) + 1 → (2147483647 : Int) + 1 < 2 ^ 31 →
        add 2147483647 1 = 2147483647 + 1) :=
  add_spec 2147483647 1 (by norm_num) (by norm_num) (by norm_num) (by norm_num)

/-- **C8**  `subtract a b` returns `a - b`; `add_or_subtract a b true`
returns `a + b` and `add_or_subtract a b false` returns `a - b`. -/
theorem subtract_add_or_subtract_spec (a b : ℝ) :
    subtract a b = a - b ∧
      add_or_subtract a b true = a + b ∧ add_or_subtract a b false = a - b :=
  ⟨rfl, rfl, rfl⟩

theorem scalar_multiply_loop_frame (a : ℝ) (xin xout : Int) (m : Mem ℝ)
    (addr : Int) (k : Nat) (h : ∀ i : Nat, i < k → addr ≠ xout + i) :
    scalar_multiply_loop a xin xout m k addr = m addr := by
  induction k with
  | zero => rfl
  | succ k ih =>
    simp only [scalar_multiply_loop, Mem.write]
    rw [if_neg (h k (Nat.lt_succ_self k))]
    exact ih fun i hi => h i (Nat.lt_succ_of_lt hi)

theorem scalar_multiply_loop_value (a : ℝ) (xin xout n : Int) (m : Mem ℝ)
    (hdisj : ∀ i j : Int, 0 ≤ i → i < n → 0 ≤ j → j < n → xin + i ≠ xout + j)
    (k : Nat) :
    (k : Int) ≤ n → ∀ i : Nat, i < k →
      scalar_multiply_loop a xin xout m k (xout + i) = a * m (xin + i) := by
  induction k with
  | zero => intro _ i hi; exact absurd hi (Nat.not_lt_zero i)
  | succ k ih =>
    intro hk i hi
    simp only [scalar_multiply_loop, Mem.write]
    by_cases hik : i = k
    · subst hik
      rw [if_pos rfl]
      congr 1
      apply scalar_multiply_loop_frame
      intro j hj
      exact hdisj i j (by omega) (by omega) (by omega) (by omega)
    · rw [if_neg (by intro hcon; apply hik; omega)]
      exact ih (by omega) i (by omega)

/-- **C6**  With non-aliasing arrays, `scalar_multiply` writes
`xout[i] = a * xin[i]` for every `i` in `[0, n)`, writes to no address
outside the `xout` array slice, and for `n ≤ 0` leaves the whole memory
unchanged (no writes occur). -/
theorem scalar_multiply_spec (a : ℝ) (xin n xout : Int) (m : Mem ℝ)
    (hdisj : ∀ i j : Int, 0 ≤ i → i < n → 0 ≤ j → j < n → xin + i ≠ xout + j) :
    (∀ i : Int, 0 ≤ i → i < n →
      scalar_multiply a xin n xout m (xout + i) = a * m (xin + i)) ∧
    (∀ addr : Int, (∀ i : Int, 0 ≤ i → i < n → addr ≠ xout + i) →
      scalar_multiply a xin n xout m addr = m addr) ∧
    (n ≤ 0 → scalar_multiply a xin n xout m = m) := by
  refine ⟨?_, ?_, ?_⟩
  · intro i h0i hin
    lift i to ℕ using h0i
    exact scalar_multiply_loop_value a xin xout n m hdisj n.toNat (by omega) i (by omega)
  · intro addr haddr
    apply scalar_multiply_loop_frame
    intro i hi
    exact haddr i (by omega) (by omega)
  · intro hn
    have h0 : n.toNat = 0 := by omega
    simp only [scalar_multiply, h0]
    rfl

/-- Concrete instantiation of `scalar_multiply_spec` with `a = 2`,
`xin` at base 0, `xout` at base 100, `n = 3`, memory holding the value of
the address everywhere: `xout[1]` receives `2 * xin[1]`. -/
theorem scalar_multiply_spec_witness :
    scalar_multiply 2 0 3 100 (fun addr => (addr : ℝ)) (100 + 1) =
      2 * ((0 + 1 : Int) : ℝ) :=
  (scalar_multiply_spec 2 0 3 100 (fun addr => (addr : ℝ))
    (by intro i j hi1 hi2 hj1 hj2; omega)).1 1 (by norm_num) (by norm_num)

/-- **C10**  `scalar_multiply` never writes to the input array: with
non-aliasing arrays, every `xin[i]` with `i` in `[0, n)` holds its pre-call
value afterwards, and for `n ≤ 0` the loop body never runs, leaving the
memory untouched. -/
theorem scalar_multiply_preserves_xin (a : ℝ) (xin n xout : Int) (m : Mem ℝ)
    (hdisj : ∀ i j : Int, 0 ≤ i → i < n → 0 ≤ j → j < n → xin + i ≠ xout + j) :
    (∀ i : Int, 0 ≤ i → i < n →
      scalar_multiply a xin n xout m (xin + i) = m (xin + i)) ∧
    (n ≤ 0 → scalar_multiply a xin n xout m = m) := by
  constructor
  · intro i h0i hin
    apply scalar_multiply_loop_frame
    intro j hj
    exact hdisj i j h0i hin (by omega) (by omega)
  · intro hn
    have h0 : n.toNat = 0 := by omega
    simp only [scalar_multiply, h0]
    rfl

/-- Concrete instantiation of `scalar_multiply_preserves_xin`: the input
slot `xin[2]` is unchanged by the call. -/
theorem scalar_multiply_preserves_xin_witness :
    scalar_multiply 2 0 3 100 (fun addr => (addr : ℝ)) (0 + 2) =
      ((0 + 2 : Int) : ℝ) :=
  (scalar_multiply_preserves_xin 2 0 3 100 (fun addr => (addr : ℝ))
    (by intro i j hi1 hi2 hj1 hj2; omega)).1 2 (by norm_num) (by norm_num)

theorem reverse_loop_frame (original n dst : Int) (m : Mem Char)
    (addr : Int) (k : Nat) (h : ∀ i : Nat, i < k → addr ≠ dst + i) :
    reverse_loop original n dst m k addr = m addr := by
  induction k with
  | zero => rfl
  | succ k ih =>
    simp only [reverse_loop, Mem.write]
    rw [if_neg (h k (Nat.lt_succ_self k))]
    exact ih fun i hi => h i (Nat.lt_succ_of_lt hi)

theorem reverse_loop_value (original n dst : Int) (m : Mem Char)
    (hdisj : ∀ i j : Int, 0 ≤ i → i < n → 0 ≤ j → j < n → dst + i ≠ original + j)
    (k : Nat) :
    (k : Int) ≤ n → ∀ i : Nat, i < k →
      reverse_loop original n dst m k (dst + i) = m (original + (n - i - 1)) := by
  induction k with
  | zero => intro _ i hi; exact absurd hi (Nat.not_lt_zero i)
  | succ k ih =>
    intro hk i hi
    simp only [reverse_loop, Mem.write]
    by_cases hik : i = k
    · subst hik
      rw [if_pos rfl]
      apply reverse_loop_frame
      intro j hj
      exact (hdisj j (n - i - 1) (by omega) (by omega) (by omega) (by omega)).symm
    · rw [if_neg (by intro hcon; apply hik; omega)]
      exact ih (by omega) i (by omega)

/-- **C4**  With non-aliasing buffers, `reverse_string_v1` writes
`reversed[i] = original[n-1-i]` for every `i` in `[0, n)`, and reversing
the reversed buffer into a third buffer restores the original sequence
(round-trip identity). -/
theorem reverse_string_v1_spec (original n reversed b3 : Int) (m : Mem Char)
    (hd1 : ∀ i j : Int, 0 ≤ i → i < n → 0 ≤ j → j < n → reversed + i ≠ original + j)
    (hd2 : ∀ i j : Int, 0 ≤ i → i < n → 0 ≤ j → j < n → b3 + i ≠ reversed + j) :
    (∀ i : Int, 0 ≤ i → i < n →
      reverse_string_v1 original n reversed m (reversed + i) = m (original + (n - 1 - i))) ∧
    (∀ i : Int, 0 ≤ i → i < n →
      reverse_string_v1 reversed n b3 (reverse_string_v1 original n reversed m) (b3 + i) =
        m (original + i)) := by
  have hval : ∀ i : Int, 0 ≤ i → i < n →
      reverse_string_v1 original n reversed m (reversed + i) = m (original + (n - 1 - i)) := by
    intro i h0i hin
    lift i to ℕ using h0i
    have h := reverse_loop_value original n reversed m hd1 n.toNat (by omega) i (by omega)
    rw [show n - 1 - (i : Int) = n - i - 1 by ring]
    exact h
  refine ⟨hval, ?_⟩
  intro i h0i hin
  have hval2 : ∀ i : Int, 0 ≤ i → i < n →
      reverse_string_v1 reversed n b3 (reverse_string_v1 original n reversed m) (b3 + i) =
        reverse_string_v1 original n reversed m (reversed + (n - 1 - i)) := by
    intro j h0j hjn
    lift j to ℕ using h0j
    have h := reverse_loop_value reversed n b3 (reverse_string_v1 original n reversed m)
      hd2 n.toNat (by omega) j (by omega)
    rw [show n - 1 - (j : Int) = n - j - 1 by ring]
    exact h
  rw [hval2 i h0i hin, hval (n - 1 - i) (by omega) (by omega),
    show n - 1 - (n - 1 - i) = i by ring]

/-- Concrete instantiation of `reverse_string_v1_spec` on the 5-char
buffer holding "hello" at base 0, reversed into base 10 and back into
base 20: slot 0 of the reversed buffer holds the letter o, and slot 0 of
the round-trip buffer again holds the letter h. -/
theorem reverse_string_v1_spec_witness :
    (reverse_string_v1 0 5 10 helloMem (10 + 0) = helloMem (0 + (5 - 1 - 0)) ∧
      reverse_string_v1 10 5 20 (reverse_string_v1 0 5 10 helloMem) (20 + 0) =
        helloMem (0 + 0)) ∧
    reverse_string_v1 0 5 10 helloMem 10 = 'o' ∧
      reverse_string_v1 10 5 20 (reverse_string_v1 0 5 10 helloMem) 20 = 'h' := by
  have h := reverse_string_v1_spec 0 5 10 20 helloMem
    (by intro i j hi1 hi2 hj1 hj2; omega) (by intro i j hi1 hi2 hj1 hj2; omega)
  refine ⟨⟨h.1 0 (by norm_num) (by norm_num), h.2 0 (by norm_num) (by norm_num)⟩, ?_, ?_⟩
  · have h1 := h.1 0 (by norm_num) (by norm_num)
    simpa [helloMem] using h1
  · have h2 := h.2 0 (by norm_num) (by norm_num)
    simpa [helloMem] using h2

/-- **C5**  With the fresh allocation not overlapping the input,
`reverse_string_v2` returns the new buffer's address, the new buffer holds
`original[n-1-i]` at slot `i` for every `i` in `[0, n)`, and the input
buffer is left unchanged by the call. -/
theorem reverse_string_v2_spec (original n alloc : Int) (m : Mem Char)
    (hfresh : ∀ i j : Int, 0 ≤ i → i < n → 0 ≤ j → j < n → alloc + i ≠ original + j) :
    (reverse_string_v2 original n alloc m).1 = alloc ∧
    (∀ i : Int, 0 ≤ i → i < n →
      (reverse_string_v2 original n alloc m).2 (alloc + i) = m (original + (n - 1 - i))) ∧
    (∀ i : Int, 0 ≤ i → i < n →
      (reverse_string_v2 original n alloc m).2 (original + i) = m (original + i)) := by
  refine ⟨rfl, ?_, ?_⟩
  · intro i h0i hin
    lift i to ℕ using h0i
    have h := reverse_loop_value original n alloc m hfresh n.toNat (by omega) i (by omega)
    rw [show n - 1 - (i : Int) = n - i - 1 by ring]
    exact h
  · intro i h0i hin
    apply reverse_loop_frame
    intro j hj
    exact fun hcon => hfresh j i (by omega) (by omega) h0i hin hcon.symm

/-- Concrete instantiation of `reverse_string_v2_spec` on the 3-char
buffer holding "abc" at base 0 with the new block at base 50: the
returned pointer is 50, slot 0 of the new buffer holds the letter c, and
the input slot 0 still holds the letter a. -/
theorem reverse_string_v2_spec_witness :
    (reverse_string_v2 0 3 50 abcMem).1 = 50 ∧
      (reverse_string_v2 0 3 50 abcMem).2 (50 + 0) = abcMem (0 + (3 - 1 - 0)) ∧
      (reverse_string_v2 0 3 50 abcMem).2 (0 + 0) = abcMem (0 + 0) ∧
      (reverse_string_v2 0 3 50 abcMem).2 50 = 'c' ∧
      (reverse_string_v2 0 3 50 abcMem).2 0 = 'a' := by
  have h := reverse_string_v2_spec 0 3 50 abcMem (by intro i j hi1 hi2 hj1 hj2; omega)
  refine ⟨h.1, h.2.1 0 (by norm_num) (by norm_num), h.2.2 0 (by norm_num) (by norm_num), ?_, ?_⟩
  · have h1 := h.2.1 0 (by norm_num) (by norm_num)
    simpa [abcMem] using h1
  · have h2 := h.2.2 0 (by norm_num) (by norm_num)
    simpa [abcMem] using h2

end CppLib
